import Mathlib

/-!
Shallow embedding of the refspec-matching baseline harness of `gitoxide`
(`git-refspec/tests/matching/mod.rs`) and of the configuration-snapshot
drop glue (`git-repository/src/config/snapshot/_impls.rs`).

Byte strings (`BString` / `&[u8]` in the source) are modelled as `List Char`,
one `Char` per byte; all inputs in scope are ASCII.  Fallible Rust code
(`?` on a `Result`) is modelled with an explicit `err` outcome, and panics
(`unwrap` / `expect` / `unwrap_or_else` with panic) with a `panicked`
outcome.  File access is abstracted away: the parsers take the list of
lines of the fixture file as input.
-/

namespace Gitoxide

/-- Bytes of a string literal, as the byte-string model used throughout. -/
def bytes (s : String) : List Char := s.data

/-- Outcome of running a piece of Rust code that may panic or return `Err`. -/
inductive Outcome (α : Type) where
  | panicked : Outcome α
  | err : Outcome α
  | ok : α → Outcome α
deriving Repr, DecidableEq

/-- `s.strip_prefix(p)`: the rest of `s` after the leading `p`, when `p`
leads `s`. -/
def stripPre : List Char → List Char → Option (List Char)
  | [], s => some s
  | _ :: _, [] => none
  | p :: ps, x :: xs => if p = x then stripPre ps xs else none

/-- `s.starts_with(p)` on byte strings. -/
def startsWithL (p s : List Char) : Bool := (stripPre p s).isSome

/-- `s.ends_with(p)` on byte strings. -/
def endsWithL (p s : List Char) : Bool := (stripPre p.reverse s.reverse).isSome

/-- `s.splitn(2, c)`: the part before the first occurrence of `c`, and the
part after it when `c` occurs at all (the second token of the iterator). -/
def splitn2 (c : Char) : List Char → List Char × Option (List Char)
  | [] => ([], none)
  | x :: xs =>
    if x = c then ([], some xs)
    else
      let r := splitn2 c xs
      (x :: r.1, r.2)

/-- `s.split(c)`: split on every occurrence of `c`, keeping empty segments. -/
def splitAll (c : Char) : List Char → List (List Char)
  | [] => [[]]
  | x :: xs =>
    if x = c then [] :: splitAll c xs
    else
      match splitAll c xs with
      | h :: t => (x :: h) :: t
      | [] => [[x]]

/-- ASCII whitespace, the class removed by `trim` on the tokens in scope. -/
def wsChar (c : Char) : Bool := c = ' ' || c = '\t' || c = '\n' || c = '\r'

/-- `s.trim()` on byte strings: strip leading and trailing whitespace. -/
def trimL (s : List Char) : List Char :=
  ((s.dropWhile wsChar).reverse.dropWhile wsChar).reverse

/-- A hex digit as accepted by `git_hash`'s hex decoder. -/
def isHexDigitChar (c : Char) : Bool :=
  ('0' ≤ c && c ≤ '9') || ('a' ≤ c && c ≤ 'f') || ('A' ≤ c && c ≤ 'F')

/-- `git_hash::ObjectId::from_hex` succeeds exactly on 40 hex digits (SHA-1);
the decoded id is kept in its hex spelling since only equality matters here. -/
def objectIdFromHex (s : List Char) : Option (List Char) :=
  if s.length = 40 && s.all isHexDigitChar then some s else none

/-- `looks_like_tag`: the fixture's tag-name convention, a hard-coded
`starts_with(b"v0.")` test. -/
def looks_like_tag (name : List Char) : Bool :=
  startsWithL (bytes "v0.") name

/-- `full_remote_ref`: qualify a remote-side token.  A token with a `/` is
kept; otherwise tag-looking tokens go under `refs/tags/`, valid hex object
ids are kept, and everything else goes under `refs/heads/`. -/
def full_remote_ref (name : List Char) : List Char :=
  if !(name.contains '/') then
    if looks_like_tag name then bytes "refs/tags/" ++ name
    else if (objectIdFromHex name).isSome then name
    else bytes "refs/heads/" ++ name
  else name

/-- `full_tracking_ref`: qualify a local tracking-side token.  A token with
the remote's `origin/` prefix goes under `refs/remotes/`, a tag-looking token
under `refs/tags/`, anything else is kept. -/
def full_tracking_ref (name : List Char) : List Char :=
  if startsWithL (bytes "origin/") name then bytes "refs/remotes/" ++ name
  else if looks_like_tag name then bytes "refs/tags/" ++ name
  else name

/-- One advertised reference, as accumulated by `parse_input`:
full name, target object id, and — for annotated tags — the id of the
tag object itself (per the source's doc comment on the field). -/
structure Ref where
  name : List Char
  target : List Char
  tag : Option (List Char)
deriving Repr, DecidableEq

/-- The peel marker, a `^` followed by an opening and a closing brace, which
ends the name on the advertisement line describing a peeled tag. -/
def peelMarker : List Char := bytes "^\x7b\x7d"

/-- One loop iteration of `parse_input` over the current `out` vector:
skip `From `-lines, split at the first tab into hex id and name, fail on a
bad hex id, panic on a missing name, push a plain ref, and on a peel line
rewrite the last pushed ref (panicking when there is none). -/
def parse_input_step (out : List Ref) (line : List Char) : Outcome (List Ref) :=
  if startsWithL (bytes "From ") line then .ok out
  else
    match objectIdFromHex (splitn2 '\t' line).1 with
    | none => .err
    | some target =>
      match (splitn2 '\t' line).2 with
      | none => .panicked
      | some name =>
        if !(endsWithL peelMarker name) then
          .ok (out ++ [{ name := name, target := target, tag := none }])
        else
          match out.getLast? with
          | none => .panicked
          | some last =>
            .ok (out.dropLast ++
              [{ name := last.name, target := target, tag := some last.target }])

/-- `parse_input`'s loop from a given accumulator, stopping at the first
`Err` or panic. -/
def parse_input_from (out : List Ref) : List (List Char) → Outcome (List Ref)
  | [] => .ok out
  | l :: ls =>
    match parse_input_step out l with
    | .ok out' => parse_input_from out' ls
    | .panicked => .panicked
    | .err => .err

/-- `parse_input` on the advertisement lines. -/
def parse_input (lines : List (List Char)) : Outcome (List Ref) :=
  parse_input_from [] lines

/-- A line whose name part (after the first tab) carries the peel marker,
and which is not skipped as a `From `-line. -/
def isPeeledLine (l : List Char) : Bool :=
  !(startsWithL (bytes "From ") l) &&
  (match (splitn2 '\t' l).2 with
   | some name => endsWithL peelMarker name
   | none => false)

/-- A line on which `parse_input` pushes a new (non-peeled) ref. -/
def pushesRef (l : List Char) : Bool :=
  !(startsWithL (bytes "From ") l) &&
  (objectIdFromHex (splitn2 '\t' l).1).isSome &&
  (match (splitn2 '\t' l).2 with
   | some name => !(endsWithL peelMarker name)
   | none => false)

/-- One expected fetch mapping of the baseline: the remote-side name and the
optional local destination (the source's `local` field). -/
structure Mapping where
  remote : List Char
  localName : Option (List Char)
deriving Repr, DecidableEq

/-- The part of a mapping line past its marker: the rest after the first
`]`, or the rest after a ` * branch ` or ` * tag ` lead. -/
def pastNote (line : List Char) : Option (List Char) :=
  match (splitn2 ']' line).2 with
  | some rest => some rest
  | none =>
    match stripPre (bytes " * branch ") line with
    | some r => some r
    | none => stripPre (bytes " * tag ") line

/-- Space-separated tokens with empty segments dropped, as produced by
`split(b' ').filter(|t| !t.is_empty())`. -/
def tokensOf (s : List Char) : List (List Char) :=
  (splitAll ' ' s).filter fun t => !t.isEmpty

/-- The mapping-line arm of `parse`'s loop: find the part past the marker
(panicking on an unhandled line), take the first and third non-empty
space-separated tokens, and build the `Mapping`; the destination is dropped
when it is the `FETCH_HEAD` sentinel. -/
def parseMappingLine (line : List Char) : Outcome Mapping :=
  match pastNote line with
  | none => .panicked
  | some pn =>
    match tokensOf pn with
    | lhs :: _ :: rhs :: _ =>
      .ok { remote := full_remote_ref (trimL lhs),
            localName :=
              if trimL rhs = bytes "FETCH_HEAD" then none
              else some (full_tracking_ref (trimL rhs)) }
    | _ => .panicked

/-- The destination token of a mapping line: the third non-empty token past
the marker, trimmed. -/
def rhsTokenOf (line : List Char) : Option (List Char) :=
  (pastNote line).bind fun pn =>
    match tokensOf pn with
    | _ :: _ :: rhs :: _ => some (trimL rhs)
    | _ => none

deriving instance DecidableEq for Except

/-- Insert into an association list, replacing the binding of an existing
key (the observable behavior of `HashMap::insert`). -/
def insertA {α β : Type} [DecidableEq α] (k : α) (v : β) :
    List (α × β) → List (α × β)
  | [] => [(k, v)]
  | (k', v') :: t => if k' = k then (k, v) :: t else (k', v') :: insertA k v t

/-- Lookup in an association list (the observable behavior of
`HashMap::get`). -/
def lookupA {α β : Type} [DecidableEq α] (k : α) : List (α × β) → Option β
  | [] => none
  | (k', v') :: t => if k' = k then some v' else lookupA k t

/-- The expected-output map built by `parse`: spec list to either a fatal
message or the expected mappings. -/
def Baseline : Type :=
  List (List (List Char) × Except (List Char) (List Mapping))

instance : DecidableEq Baseline := by
  unfold Baseline
  infer_instance

/-- The loop state of `parse`: the map built so far, the mappings
accumulated since they were last taken, and a pending fatal message. -/
structure BaselineState where
  map : Baseline
  mappings : List Mapping
  fatal : Option (List Char)
deriving DecidableEq

/-- One loop iteration of `parse`: skip `From `-lines; a `specs: ` line
closes a case, keyed by the space-split spec list, with the pending fatal
message as an `Err` (leaving the accumulated mappings in place) or the
accumulated mappings as an `Ok` (taking them); a `fatal: ` line stores its
message; anything else is a mapping line. -/
def parse_step (s : BaselineState) (line : List Char) : Outcome BaselineState :=
  if startsWithL (bytes "From ") line then .ok s
  else
    match stripPre (bytes "specs: ") line with
    | some specs =>
      match s.fatal with
      | some msg =>
        .ok { map := insertA (splitAll ' ' specs) (Except.error msg) s.map,
              mappings := s.mappings, fatal := none }
      | none =>
        .ok { map := insertA (splitAll ' ' specs) (Except.ok s.mappings) s.map,
              mappings := [], fatal := none }
    | none =>
      match stripPre (bytes "fatal: ") line with
      | some msg => .ok { s with fatal := some msg }
      | none =>
        match parseMappingLine line with
        | .ok m => .ok { s with mappings := s.mappings ++ [m] }
        | _ => .panicked

/-- `parse`'s loop from a given state, stopping at the first panic. -/
def parse_from (s : BaselineState) : List (List Char) → Outcome BaselineState
  | [] => .ok s
  | l :: ls =>
    match parse_step s l with
    | .ok s' => parse_from s' ls
    | .panicked => .panicked
    | .err => .err

/-- `parse` on the baseline lines: run the loop from the empty state and
return the built map. -/
def parse (lines : List (List Char)) : Outcome Baseline :=
  match parse_from { map := [], mappings := [], fatal := none } lines with
  | .ok s => .ok s.map
  | .panicked => .panicked
  | .err => .err

/-- The property C7 ascribes to a line: if it is not a skipped `From `-line
nor a `specs: ` nor a `fatal: ` line, it has one of the three documented
mapping shapes and at least three non-empty space-separated tokens past the
marker. -/
def lineDocumented (l : List Char) : Prop :=
  startsWithL (bytes "From ") l = false →
    stripPre (bytes "specs: ") l = none →
    stripPre (bytes "fatal: ") l = none →
    ((l.contains ']' || startsWithL (bytes " * branch ") l ||
        startsWithL (bytes " * tag ") l) &&
      (match pastNote l with
       | some pn => decide (3 ≤ (tokensOf pn).length)
       | none => false)) = true

instance (l : List Char) : Decidable (lineDocumented l) := by
  unfold lineDocumented
  infer_instance

/-- A line handled by the innermost (mapping) arm of `parse`'s loop without
panicking: not skipped, not a `specs: ` or `fatal: ` line, and accepted by
the mapping-line parsing. -/
def plainMappingLine (l : List Char) : Bool :=
  !(startsWithL (bytes "From ") l) && (stripPre (bytes "specs: ") l).isNone &&
  (stripPre (bytes "fatal: ") l).isNone &&
  (match parseMappingLine l with
   | .ok _ => true
   | _ => false)

/-- The mappings contributed by a run of mapping lines. -/
def mappingsOf (ls : List (List Char)) : List Mapping :=
  ls.filterMap fun l =>
    match parseMappingLine l with
    | .ok m => some m
    | _ => none

/-- A repository handle, reduced to its resolved configuration; the
configuration content itself stays an abstract type `C`. -/
structure Repository (C : Type) where
  resolved : C

/-- `SnapshotMut`: a mutable configuration snapshot; `repo` is the optional
repository handle, taken (set to `none`) by an explicit settle, and `config`
the pending configuration. -/
structure SnapshotMutM (C : Type) where
  repo : Option (Repository C)
  config : C

/-- `CommitAndRollback`: holds the repository and the previous configuration
to restore. -/
structure CommitAndRollbackM (C : Type) where
  repo : Repository C
  prev_config : C

/-- Modelled from the spec: `commit_inner` (not under `src/`) commits the
snapshot's pending configuration changes into the repository. -/
def commit_inner {C : Type} (s : SnapshotMutM C) (_r : Repository C) :
    Repository C :=
  { resolved := s.config }

/-- Modelled from the spec: `reread_values_and_clear_caches` (not under
`src/`) restores the given previous configuration as the repository's
resolved configuration. -/
def reread_values_and_clear_caches {C : Type} (_r : Repository C) (c : C) :
    Repository C :=
  { resolved := c }

/-- `Drop for SnapshotMut`: if the repository handle was not already taken,
commit the pending changes into it; the updated repository (when any) is
the observable effect. -/
def dropSnapshotMut {C : Type} (s : SnapshotMutM C) : Option (Repository C) :=
  s.repo.map fun repo => commit_inner s repo

/-- `Drop for CommitAndRollback`: restore the previous configuration. -/
def dropCommitAndRollback {C : Type} (cr : CommitAndRollbackM C) :
    Repository C :=
  reread_values_and_clear_caches cr.repo cr.prev_config

/-- The ways a scope can be left in the surrounding Rust code. -/
inductive ScopeExit where
  | normal : ScopeExit
  | earlyReturn : ScopeExit
  | failure : ScopeExit

/-- Leaving a scope holding a `SnapshotMut` runs its destructor, whatever
the exit path (Rust's deterministic-destruction rule). -/
def snapshotScopeExit {C : Type} (_e : ScopeExit) (s : SnapshotMutM C) :
    Option (Repository C) :=
  dropSnapshotMut s

/-- Leaving a scope holding a `CommitAndRollback` runs its destructor,
whatever the exit path. -/
def rollbackScopeExit {C : Type} (_e : ScopeExit) (cr : CommitAndRollbackM C) :
    Repository C :=
  dropCommitAndRollback cr

/-! ## Helper lemmas -/

theorem stripPre_isSome_iff (p s : List Char) :
    (stripPre p s).isSome = p.isPrefixOf s := by
  induction p generalizing s with
  | nil => simp [stripPre, List.isPrefixOf]
  | cons a as ih =>
    cases s with
    | nil => simp [stripPre, List.isPrefixOf]
    | cons b bs =>
      by_cases h : a = b <;> simp [stripPre, List.isPrefixOf, h, ih]

theorem append_left_ne_of_length_ne (p q r : List Char)
    (h : p.length ≠ q.length) : p ++ r ≠ q ++ r := by
  intro he
  exact h (by simpa using congrArg List.length he)

theorem ne_append_left_of_ne_nil (p r : List Char) (h : p ≠ []) :
    r ≠ p ++ r := by
  intro he
  have hl := congrArg List.length he
  rw [List.length_append] at hl
  have hp : p.length = 0 := by omega
  exact h (List.length_eq_zero.mp hp)

theorem stripPre_append (p r : List Char) : stripPre p (p ++ r) = some r := by
  induction p with
  | nil => rfl
  | cons a as ih => simp [stripPre, ih]

theorem splitn2_no_sep (c : Char) (pre rest : List Char)
    (h : pre.contains c = false) :
    splitn2 c (pre ++ c :: rest) = (pre, some rest) := by
  induction pre with
  | nil => simp [splitn2]
  | cons x xs ih =>
    simp only [List.contains_cons, Bool.or_eq_false_iff, beq_eq_false_iff_ne] at h
    have hx : ¬ x = c := fun e => h.1 e.symm
    simp [splitn2, hx, ih h.2]

theorem splitn2_snd_isSome (c : Char) (s : List Char) :
    (splitn2 c s).2.isSome = s.contains c := by
  induction s with
  | nil => rfl
  | cons x xs ih =>
    by_cases h : x = c
    · simp [splitn2, h, List.contains_cons]
    · have hcx : (c == x) = false := beq_eq_false_iff_ne.mpr fun e => h e.symm
      simp only [splitn2, if_neg h, List.contains_cons, hcx, Bool.false_or]
      exact ih

theorem objectIdFromHex_isSome (id : List Char)
    (h : (objectIdFromHex id).isSome = true) :
    objectIdFromHex id = some id ∧ id.length = 40 ∧
      id.all isHexDigitChar = true := by
  unfold objectIdFromHex at *
  by_cases hc : (id.length = 40 && id.all isHexDigitChar) = true
  · rw [Bool.and_eq_true, decide_eq_true_iff] at hc
    refine ⟨by simp [hc.1, hc.2], hc.1, hc.2⟩
  · rw [if_neg hc] at h
    simp at h

theorem hex_no_tab (id : List Char) (h : id.all isHexDigitChar = true) :
    id.contains '\t' = false := by
  induction id with
  | nil => rfl
  | cons a as ih =>
    simp only [List.all_cons, Bool.and_eq_true] at h
    have ha : ('\t' == a) = false := by
      refine beq_eq_false_iff_ne.mpr fun he => ?_
      exact absurd h.1 (he ▸ (by decide))
    simp only [List.contains_cons, Bool.or_eq_false_iff]
    exact ⟨ha, ih h.2⟩

theorem hex_not_from_led (id rest : List Char) (hlen : id.length = 40)
    (hall : id.all isHexDigitChar = true) :
    startsWithL (bytes "From ") (id ++ rest) = false := by
  cases id with
  | nil => simp at hlen
  | cons a t1 =>
    cases t1 with
    | nil => simp at hlen
    | cons b t =>
      simp only [List.all_cons, Bool.and_eq_true] at hall
      have hb : bytes "From " = 'F' :: 'r' :: bytes "om " := rfl
      rw [hb]
      show (stripPre ('F' :: 'r' :: bytes "om ") (a :: b :: (t ++ rest))).isSome
        = false
      by_cases hFa : 'F' = a
      · rw [stripPre, if_pos hFa]
        have hrb : ¬ ('r' = b) := by
          intro he
          exact absurd hall.2.1 (he ▸ (by decide))
        rw [stripPre, if_neg hrb]
        rfl
      · rw [stripPre, if_neg hFa]
        rfl

/-- Shared shape of `parse_input_step` on a well-formed peel line: the last
accumulated ref (when present) gets the peel line's id as `target` and its
own previous `target` as `tag`; with an empty accumulator the step panics. -/
theorem parse_input_step_peel (out : List Ref) (id name : List Char)
    (hid : (objectIdFromHex id).isSome = true)
    (hpeel : endsWithL peelMarker name = true) :
    parse_input_step out (id ++ '\t' :: name) =
      match out.getLast? with
      | none => .panicked
      | some last =>
        .ok (out.dropLast ++
          [{ name := last.name, target := id, tag := some last.target }]) := by
  obtain ⟨hsome, hlen, hall⟩ := objectIdFromHex_isSome id hid
  unfold parse_input_step
  rw [hex_not_from_led id _ hlen hall]
  simp only [Bool.false_eq_true, if_false]
  rw [splitn2_no_sep '\t' id name (hex_no_tab id hall)]
  simp only [hsome, hpeel]
  rfl

theorem full_remote_ref_of_contains (name : List Char)
    (h : name.contains '/' = true) : full_remote_ref name = name := by
  unfold full_remote_ref
  rw [h]
  simp

theorem full_remote_ref_of_tag (name : List Char)
    (h : name.contains '/' = false) (ht : looks_like_tag name = true) :
    full_remote_ref name = bytes "refs/tags/" ++ name := by
  unfold full_remote_ref
  rw [h, ht]
  simp

theorem full_remote_ref_of_hex (name : List Char)
    (h : name.contains '/' = false) (ht : looks_like_tag name = false)
    (hx : (objectIdFromHex name).isSome = true) :
    full_remote_ref name = name := by
  unfold full_remote_ref
  rw [h, ht, hx]
  simp

theorem full_remote_ref_of_plain (name : List Char)
    (h : name.contains '/' = false) (ht : looks_like_tag name = false)
    (hx : (objectIdFromHex name).isSome = false) :
    full_remote_ref name = bytes "refs/heads/" ++ name := by
  unfold full_remote_ref
  rw [h, ht, hx]
  simp

theorem full_tracking_ref_of_origin (name : List Char)
    (h : startsWithL (bytes "origin/") name = true) :
    full_tracking_ref name = bytes "refs/remotes/" ++ name := by
  unfold full_tracking_ref
  rw [h]
  simp

theorem full_tracking_ref_of_tag (name : List Char)
    (h : startsWithL (bytes "origin/") name = false)
    (ht : looks_like_tag name = true) :
    full_tracking_ref name = bytes "refs/tags/" ++ name := by
  unfold full_tracking_ref
  rw [h, ht]
  simp

theorem full_tracking_ref_of_other (name : List Char)
    (h : startsWithL (bytes "origin/") name = false)
    (ht : looks_like_tag name = false) :
    full_tracking_ref name = name := by
  unfold full_tracking_ref
  rw [h, ht]
  simp

/-! ## Claim theorems -/

/-- C1: `full_remote_ref` keeps tokens holding a `/`; otherwise it prefixes
tag-convention tokens with `refs/tags/`, keeps valid hex object ids, and
prefixes everything else with `refs/heads/`. -/
theorem full_remote_ref_spec (name : List Char) :
    (name.contains '/' = true → full_remote_ref name = name) ∧
    (name.contains '/' = false → looks_like_tag name = true →
      full_remote_ref name = bytes "refs/tags/" ++ name) ∧
    (name.contains '/' = false → looks_like_tag name = false →
      (objectIdFromHex name).isSome = true → full_remote_ref name = name) ∧
    (name.contains '/' = false → looks_like_tag name = false →
      (objectIdFromHex name).isSome = false →
      full_remote_ref name = bytes "refs/heads/" ++ name) :=
  ⟨full_remote_ref_of_contains name, full_remote_ref_of_tag name,
    full_remote_ref_of_hex name, full_remote_ref_of_plain name⟩

/-- Witness for C1: the four branches at concrete tokens. -/
theorem full_remote_ref_spec_witness :
    full_remote_ref (bytes "refs/heads/main") = bytes "refs/heads/main" ∧
    full_remote_ref (bytes "v0.1") = bytes "refs/tags/v0.1" ∧
    full_remote_ref (bytes "78b1c1be9421b33a49a7a8176d93eeeafa112da1") =
      bytes "78b1c1be9421b33a49a7a8176d93eeeafa112da1" ∧
    full_remote_ref (bytes "main") = bytes "refs/heads/main" := by
  refine ⟨(full_remote_ref_spec _).1 (by decide),
    (full_remote_ref_spec _).2.1 (by decide) (by decide),
    (full_remote_ref_spec _).2.2.1 (by decide) (by decide) (by decide),
    (full_remote_ref_spec _).2.2.2 (by decide) (by decide) (by decide)⟩

/-- C2: `full_tracking_ref` prefixes `origin/`-led tokens with
`refs/remotes/`, tag-convention tokens with `refs/tags/`, and keeps the rest. -/
theorem full_tracking_ref_spec (name : List Char) :
    (startsWithL (bytes "origin/") name = true →
      full_tracking_ref name = bytes "refs/remotes/" ++ name) ∧
    (startsWithL (bytes "origin/") name = false → looks_like_tag name = true →
      full_tracking_ref name = bytes "refs/tags/" ++ name) ∧
    (startsWithL (bytes "origin/") name = false → looks_like_tag name = false →
      full_tracking_ref name = name) :=
  ⟨full_tracking_ref_of_origin name, full_tracking_ref_of_tag name,
    full_tracking_ref_of_other name⟩

/-- Witness for C2: the three branches at concrete tokens. -/
theorem full_tracking_ref_spec_witness :
    full_tracking_ref (bytes "origin/main") = bytes "refs/remotes/origin/main" ∧
    full_tracking_ref (bytes "v0.2") = bytes "refs/tags/v0.2" ∧
    full_tracking_ref (bytes "main") = bytes "main" := by
  refine ⟨(full_tracking_ref_spec _).1 (by decide),
    (full_tracking_ref_spec _).2.1 (by decide) (by decide),
    (full_tracking_ref_spec _).2.2 (by decide) (by decide)⟩

/-- C10: the tag-name convention of both namers is the fixed test
"the token starts with the bytes `v0.`", and it is exactly the condition
under which either namer produces a `refs/tags/` name. -/
theorem looks_like_tag_spec (name : List Char) :
    (looks_like_tag name = true ↔ (bytes "v0.").isPrefixOf name = true) ∧
    (name.contains '/' = false →
      (full_remote_ref name = bytes "refs/tags/" ++ name ↔
        looks_like_tag name = true)) ∧
    (startsWithL (bytes "origin/") name = false →
      (full_tracking_ref name = bytes "refs/tags/" ++ name ↔
        looks_like_tag name = true)) := by
  refine ⟨by rw [looks_like_tag, startsWithL, stripPre_isSome_iff], ?_, ?_⟩
  · intro h
    constructor
    · intro he
      by_contra ht
      rw [Bool.not_eq_true] at ht
      by_cases hx : (objectIdFromHex name).isSome = true
      · rw [full_remote_ref_of_hex name h ht hx] at he
        exact ne_append_left_of_ne_nil _ _ (by decide) he
      · rw [full_remote_ref_of_plain name h ht (by simpa using hx)] at he
        exact append_left_ne_of_length_ne _ _ _ (by decide) he
    · exact fun ht => full_remote_ref_of_tag name h ht
  · intro h
    constructor
    · intro he
      by_contra ht
      rw [Bool.not_eq_true] at ht
      rw [full_tracking_ref_of_other name h ht] at he
      exact ne_append_left_of_ne_nil _ _ (by decide) he
    · exact fun ht => full_tracking_ref_of_tag name h ht

/-- Witness for C10: both directions of the characterization at `v0.9`. -/
theorem looks_like_tag_spec_witness :
    (full_remote_ref (bytes "v0.9") = bytes "refs/tags/v0.9") ∧
    (full_tracking_ref (bytes "v0.9") = bytes "refs/tags/v0.9") := by
  exact ⟨((looks_like_tag_spec (bytes "v0.9")).2.1 (by decide)).mpr (by decide),
    ((looks_like_tag_spec (bytes "v0.9")).2.2 (by decide)).mpr (by decide)⟩

/-- C4 counterexample: on an annotated-tag advertisement, the built `Ref`
carries the peel line's id in `target` and the id of the ref's own line in
`tag` — the opposite of the claimed assignment (the two ids differ here). -/
theorem parse_input_peel_swap_cex :
    parse_input
      [bytes "e3b0c44298fc1c149afbf4c8996fb92427ae41e4\trefs/tags/v0.5",
       bytes "aaaaaaaaaaaaaaaaaaaaaaaaaaaaaaaaaaaaaaaa\trefs/tags/v0.5^\x7b\x7d"] =
      Outcome.ok
        [{ name := bytes "refs/tags/v0.5",
           target := bytes "aaaaaaaaaaaaaaaaaaaaaaaaaaaaaaaaaaaaaaaa",
           tag := some (bytes "e3b0c44298fc1c149afbf4c8996fb92427ae41e4") }] ∧
    bytes "aaaaaaaaaaaaaaaaaaaaaaaaaaaaaaaaaaaaaaaa" ≠
      bytes "e3b0c44298fc1c149afbf4c8996fb92427ae41e4" := by
  exact ⟨by decide, by decide⟩

/-- C4 (amended): on a well-formed peel line the last accumulated ref keeps
its name, its `target` becomes the id advertised on the peel line (the
peeled object), and its `tag` becomes the id the ref's own line had
advertised (the tag object itself). -/
theorem parse_input_peel_updates_last (out : List Ref) (r : Ref)
    (id name : List Char)
    (hid : (objectIdFromHex id).isSome = true)
    (hpeel : endsWithL peelMarker name = true) :
    parse_input_step (out ++ [r]) (id ++ '\t' :: name) =
      .ok (out ++ [{ name := r.name, target := id, tag := some r.target }]) := by
  rw [parse_input_step_peel _ _ _ hid hpeel]
  rw [List.getLast?_concat, List.dropLast_concat]

/-- Witness for the amended C4 at a concrete two-id advertisement. -/
theorem parse_input_peel_updates_last_witness :
    parse_input_step
      ([] ++ [{ name := bytes "refs/tags/v0.5",
                target := bytes "e3b0c44298fc1c149afbf4c8996fb92427ae41e4",
                tag := none }])
      (bytes "aaaaaaaaaaaaaaaaaaaaaaaaaaaaaaaaaaaaaaaa" ++
        '\t' :: bytes "refs/tags/v0.5^\x7b\x7d") =
      .ok ([] ++
        [{ name := bytes "refs/tags/v0.5",
           target := bytes "aaaaaaaaaaaaaaaaaaaaaaaaaaaaaaaaaaaaaaaa",
           tag := some (bytes "e3b0c44298fc1c149afbf4c8996fb92427ae41e4") }]) := by
  exact parse_input_peel_updates_last [] _ _ _ (by decide) (by decide)

theorem parse_input_step_ok_shape (out : List Ref) (l : List Char)
    (out' : List Ref) (h : parse_input_step out l = .ok out') :
    out' = out ∨ pushesRef l = true ∨ out ≠ [] := by
  unfold parse_input_step at h
  by_cases hF : startsWithL (bytes "From ") l = true
  · rw [if_pos hF] at h
    left
    exact (Outcome.ok.injEq _ _ ▸ h).symm
  · rw [if_neg hF] at h
    have hF' : startsWithL (bytes "From ") l = false := by
      simpa using hF
    cases hx : objectIdFromHex (splitn2 '\t' l).1 with
    | none => rw [hx] at h; exact absurd h (by simp)
    | some target =>
      rw [hx] at h
      cases hn : (splitn2 '\t' l).2 with
      | none => rw [hn] at h; exact absurd h (by simp)
      | some name =>
        rw [hn] at h
        dsimp only at h
        by_cases he : endsWithL peelMarker name = true
        · rw [he] at h
          simp only [Bool.not_true, Bool.false_eq_true, if_false] at h
          cases hl : out.getLast? with
          | none => rw [hl] at h; exact absurd h (by simp)
          | some last =>
            right; right
            intro hout
            rw [hout] at hl
            simp at hl
        · have he' : endsWithL peelMarker name = false := by simpa using he
          right; left
          simp [pushesRef, hF', hx, hn, he']

theorem parse_input_step_peeled_ok (out : List Ref) (l : List Char)
    (out' : List Ref) (h : parse_input_step out l = .ok out')
    (hp : isPeeledLine l = true) : out ≠ [] := by
  unfold isPeeledLine at hp
  rw [Bool.and_eq_true] at hp
  have hF : startsWithL (bytes "From ") l = false := by
    simpa using hp.1
  unfold parse_input_step at h
  rw [hF] at h
  simp only [Bool.false_eq_true, if_false] at h
  cases hx : objectIdFromHex (splitn2 '\t' l).1 with
  | none => rw [hx] at h; exact absurd h (by simp)
  | some target =>
    rw [hx] at h
    cases hn : (splitn2 '\t' l).2 with
    | none => rw [hn] at h; exact absurd h (by simp)
    | some name =>
      have hpeel : endsWithL peelMarker name = true := by
        have hp2 := hp.2
        rw [hn] at hp2
        exact hp2
      rw [hn] at h
      dsimp only at h
      rw [hpeel] at h
      simp only [Bool.not_true, Bool.false_eq_true, if_false] at h
      cases hl : out.getLast? with
      | none => rw [hl] at h; exact absurd h (by simp)
      | some last =>
        intro hout
        rw [hout] at hl
        simp at hl

theorem parse_input_from_ok_peel (lines : List (List Char)) :
    ∀ out res, parse_input_from out lines = .ok res →
      ∀ l1 p l2, lines = l1 ++ p :: l2 → isPeeledLine p = true →
        out ≠ [] ∨ ∃ r, r ∈ l1 ∧ pushesRef r = true := by
  induction lines with
  | nil =>
    intro out res _h l1 p l2 heq _hp
    exact absurd heq (by simp)
  | cons a ls ih =>
    intro out res h l1 p l2 heq hp
    unfold parse_input_from at h
    cases hs : parse_input_step out a with
    | err => rw [hs] at h; exact absurd h (by simp)
    | panicked => rw [hs] at h; exact absurd h (by simp)
    | ok out' =>
      rw [hs] at h
      cases l1 with
      | nil =>
        simp only [List.nil_append, List.cons.injEq] at heq
        left
        exact parse_input_step_peeled_ok out a out' hs (heq.1 ▸ hp)
      | cons b l1' =>
        simp only [List.cons_append, List.cons.injEq] at heq
        obtain ⟨hab, hls⟩ := heq
        rcases ih out' res h l1' p l2 hls hp with hne | ⟨r, hr, hpr⟩
        · rcases parse_input_step_ok_shape out a out' hs with heq' | hpush | hone
          · left; exact heq' ▸ hne
          · right; exact ⟨b, by simp, hab ▸ hpush⟩
          · left; exact hone
        · right; exact ⟨r, by simp [hr], hpr⟩

/-- C9 counterexample: a peel line whose id is not valid hex makes
`parse_input` return `Err` — not a panic — even though the peel line comes
before any non-peeled ref line. -/
theorem parse_input_err_not_panic_cex :
    parse_input [bytes "zz\trefs/tags/v0.5^\x7b\x7d"] = Outcome.err ∧
    isPeeledLine (bytes "zz\trefs/tags/v0.5^\x7b\x7d") = true ∧
    (Outcome.err : Outcome (List Ref)) ≠ Outcome.panicked := by
  exact ⟨by decide, by decide, by decide⟩

/-- C9 (amended): a well-formed peel line (valid hex id) reached with an
empty accumulator panics via the unwrap on `last_mut`; and whenever
`parse_input` returns `Ok`, every peel line of the input is preceded by at
least one line that pushes a non-peeled ref. -/
theorem parse_input_peel_needs_prior_ref :
    (∀ id name, (objectIdFromHex id).isSome = true →
      endsWithL peelMarker name = true →
      parse_input_step [] (id ++ '\t' :: name) = .panicked) ∧
    (∀ lines res, parse_input lines = .ok res →
      ∀ l1 p l2, lines = l1 ++ p :: l2 → isPeeledLine p = true →
        ∃ r, r ∈ l1 ∧ pushesRef r = true) := by
  constructor
  · intro id name hid hpeel
    rw [parse_input_step_peel [] id name hid hpeel]
    rfl
  · intro lines res h l1 p l2 heq hp
    rcases parse_input_from_ok_peel lines [] res h l1 p l2 heq hp with hne | hex
    · exact absurd rfl hne
    · exact hex

/-- Witness for the amended C9: the panic with an empty accumulator, and the
preceding-ref guarantee on a concrete two-line `Ok` input. -/
theorem parse_input_peel_needs_prior_ref_witness :
    parse_input_step []
      (bytes "aaaaaaaaaaaaaaaaaaaaaaaaaaaaaaaaaaaaaaaa" ++
        '\t' :: bytes "refs/tags/v0.5^\x7b\x7d") = .panicked ∧
    ∃ r, r ∈ [bytes "e3b0c44298fc1c149afbf4c8996fb92427ae41e4\trefs/tags/v0.5"] ∧
      pushesRef r = true := by
  constructor
  · exact parse_input_peel_needs_prior_ref.1 _ _ (by decide) (by decide)
  · exact parse_input_peel_needs_prior_ref.2
      [bytes "e3b0c44298fc1c149afbf4c8996fb92427ae41e4\trefs/tags/v0.5",
       bytes "aaaaaaaaaaaaaaaaaaaaaaaaaaaaaaaaaaaaaaaa\trefs/tags/v0.5^\x7b\x7d"]
      [{ name := bytes "refs/tags/v0.5",
         target := bytes "aaaaaaaaaaaaaaaaaaaaaaaaaaaaaaaaaaaaaaaa",
         tag := some (bytes "e3b0c44298fc1c149afbf4c8996fb92427ae41e4") }]
      (by decide)
      [bytes "e3b0c44298fc1c149afbf4c8996fb92427ae41e4\trefs/tags/v0.5"]
      (bytes "aaaaaaaaaaaaaaaaaaaaaaaaaaaaaaaaaaaaaaaa\trefs/tags/v0.5^\x7b\x7d")
      [] rfl (by decide)

/-- C3: a parsed mapping line has no local name exactly when its destination
token is the `FETCH_HEAD` sentinel; otherwise the local name is the
destination token qualified by `full_tracking_ref`. -/
theorem mapping_local_fetch_head (line : List Char) (m : Mapping)
    (h : parseMappingLine line = .ok m) :
    ∃ rhs, rhsTokenOf line = some rhs ∧
      (m.localName = none ↔ rhs = bytes "FETCH_HEAD") ∧
      (rhs ≠ bytes "FETCH_HEAD" →
        m.localName = some (full_tracking_ref rhs)) := by
  unfold parseMappingLine at h
  cases hp : pastNote line with
  | none => rw [hp] at h; exact absurd h (by simp)
  | some pn =>
    rw [hp] at h
    dsimp only at h
    unfold rhsTokenOf
    rw [hp]
    dsimp only [Option.bind]
    rcases htk : tokensOf pn with _ | ⟨lhs, _ | ⟨mid, _ | ⟨rhs, rest⟩⟩⟩ <;>
      rw [htk] at h
    · exact absurd h (by simp)
    · exact absurd h (by simp)
    · exact absurd h (by simp)
    · dsimp only at h
      rw [Outcome.ok.injEq] at h
      subst h
      refine ⟨trimL rhs, rfl, ?_, ?_⟩
      · by_cases hf : trimL rhs = bytes "FETCH_HEAD" <;> simp [hf]
      · intro hne; simp [hne]

/-- Witness for C3 on a concrete `FETCH_HEAD` mapping line. -/
theorem mapping_local_fetch_head_witness :
    ∃ rhs, rhsTokenOf (bytes " * branch main -> FETCH_HEAD") = some rhs ∧
      ((Mapping.mk (bytes "refs/heads/main") none).localName = none ↔
        rhs = bytes "FETCH_HEAD") ∧
      (rhs ≠ bytes "FETCH_HEAD" →
        (Mapping.mk (bytes "refs/heads/main") none).localName =
          some (full_tracking_ref rhs)) := by
  exact mapping_local_fetch_head _ _ (by decide)

theorem startsWith_cons_ne (p : Char) (ps : List Char) (x : Char)
    (xs : List Char) (h : ¬ p = x) :
    startsWithL (p :: ps) (x :: xs) = false := by
  unfold startsWithL
  rw [stripPre, if_neg h]
  rfl

theorem stripPre_cons_ne (p : Char) (ps : List Char) (x : Char)
    (xs : List Char) (h : ¬ p = x) :
    stripPre (p :: ps) (x :: xs) = none := by
  rw [stripPre, if_neg h]

theorem pastNote_isSome (l : List Char) :
    (pastNote l).isSome =
      (l.contains ']' || startsWithL (bytes " * branch ") l ||
        startsWithL (bytes " * tag ") l) := by
  unfold pastNote
  cases hsp : (splitn2 ']' l).2 with
  | some rest =>
    have hc : l.contains ']' = true := by
      rw [← splitn2_snd_isSome ']' l, hsp]
      rfl
    rw [hc]
    rfl
  | none =>
    have hc : l.contains ']' = false := by
      rw [← splitn2_snd_isSome ']' l, hsp]
      rfl
    rw [hc]
    dsimp only
    cases hb : stripPre (bytes " * branch ") l with
    | some r => simp [startsWithL, hb]
    | none => simp [startsWithL, hb]

theorem parseMappingLine_ok_iff (l : List Char) :
    (∃ m, parseMappingLine l = .ok m) ↔
      ((l.contains ']' || startsWithL (bytes " * branch ") l ||
          startsWithL (bytes " * tag ") l) &&
        (match pastNote l with
         | some pn => decide (3 ≤ (tokensOf pn).length)
         | none => false)) = true := by
  have hdis := pastNote_isSome l
  cases hp : pastNote l with
  | none =>
    rw [hp] at hdis
    unfold parseMappingLine
    rw [hp]
    simp [← hdis]
  | some pn =>
    rw [hp] at hdis
    unfold parseMappingLine
    rw [hp]
    dsimp only
    rw [← hdis]
    simp only [Option.isSome_some, Bool.true_and]
    rcases htk : tokensOf pn with _ | ⟨a, _ | ⟨b, _ | ⟨c, rest⟩⟩⟩
    · simp
    · simp
    · simp
    · simp [List.length_cons]

theorem parse_step_skip (s : BaselineState) (l : List Char)
    (h : startsWithL (bytes "From ") l = true) : parse_step s l = .ok s := by
  unfold parse_step
  rw [h]
  simp

theorem parse_step_specs (s : BaselineState) (k : List Char) :
    parse_step s (bytes "specs: " ++ k) =
      .ok { map := insertA (splitAll ' ' k)
              (match s.fatal with
               | some msg => Except.error msg
               | none => Except.ok s.mappings) s.map,
            mappings :=
              match s.fatal with
              | some _ => s.mappings
              | none => [],
            fatal := none } := by
  have hFrom : startsWithL (bytes "From ") (bytes "specs: " ++ k) = false := by
    have e1 : bytes "From " = 'F' :: bytes "rom " := rfl
    have e2 : bytes "specs: " ++ k = 's' :: (bytes "pecs: " ++ k) := rfl
    rw [e1, e2]
    exact startsWith_cons_ne _ _ _ _ (by decide)
  unfold parse_step
  rw [hFrom]
  simp only [Bool.false_eq_true, if_false]
  rw [stripPre_append]
  cases hf : s.fatal <;> rfl

theorem parse_step_fatal (s : BaselineState) (msg : List Char) :
    parse_step s (bytes "fatal: " ++ msg) = .ok { s with fatal := some msg } := by
  have hFrom : startsWithL (bytes "From ") (bytes "fatal: " ++ msg) = false := by
    have e1 : bytes "From " = 'F' :: bytes "rom " := rfl
    have e2 : bytes "fatal: " ++ msg = 'f' :: (bytes "atal: " ++ msg) := rfl
    rw [e1, e2]
    exact startsWith_cons_ne _ _ _ _ (by decide)
  have hSpecs : stripPre (bytes "specs: ") (bytes "fatal: " ++ msg) = none := by
    have e1 : bytes "specs: " = 's' :: bytes "pecs: " := rfl
    have e2 : bytes "fatal: " ++ msg = 'f' :: (bytes "atal: " ++ msg) := rfl
    rw [e1, e2]
    exact stripPre_cons_ne _ _ _ _ (by decide)
  unfold parse_step
  rw [hFrom]
  simp only [Bool.false_eq_true, if_false]
  rw [hSpecs]
  dsimp only
  rw [stripPre_append]

theorem parse_step_mapping (s : BaselineState) (l : List Char) (m : Mapping)
    (hF : startsWithL (bytes "From ") l = false)
    (hs : stripPre (bytes "specs: ") l = none)
    (hf : stripPre (bytes "fatal: ") l = none)
    (hm : parseMappingLine l = .ok m) :
    parse_step s l = .ok { s with mappings := s.mappings ++ [m] } := by
  unfold parse_step
  rw [hF]
  simp only [Bool.false_eq_true, if_false]
  rw [hs]
  dsimp only
  rw [hf]
  dsimp only
  rw [hm]

theorem parse_step_ok_iff (s : BaselineState) (l : List Char) :
    (∃ s', parse_step s l = .ok s') ↔ lineDocumented l := by
  unfold lineDocumented
  rw [← parseMappingLine_ok_iff l]
  by_cases hF : startsWithL (bytes "From ") l = true
  · rw [parse_step_skip s l hF]
    simp [hF]
  · have hF' : startsWithL (bytes "From ") l = false := by simpa using hF
    unfold parse_step
    rw [hF']
    simp only [Bool.false_eq_true, if_false]
    cases hsp : stripPre (bytes "specs: ") l with
    | some sp =>
      dsimp only
      cases hfat : s.fatal <;> simp
    | none =>
      dsimp only
      cases hf : stripPre (bytes "fatal: ") l with
      | some msg => simp
      | none =>
        dsimp only
        cases hm : parseMappingLine l with
        | ok m => simp [hF', hm]
        | panicked => simp [hF', hm]
        | err => simp [hF', hm]

theorem parse_step_no_err (s : BaselineState) (l : List Char) :
    parse_step s l ≠ .err := by
  unfold parse_step
  by_cases hF : startsWithL (bytes "From ") l = true
  · rw [hF]
    simp
  · have hF' : startsWithL (bytes "From ") l = false := by simpa using hF
    rw [hF']
    simp only [Bool.false_eq_true, if_false]
    cases hsp : stripPre (bytes "specs: ") l with
    | some sp =>
      dsimp only
      cases hfat : s.fatal <;> simp
    | none =>
      dsimp only
      cases hf : stripPre (bytes "fatal: ") l with
      | some msg => simp
      | none =>
        dsimp only
        cases hm : parseMappingLine l with
        | ok m => simp
        | panicked => simp
        | err => simp

theorem parse_from_no_err (lines : List (List Char)) :
    ∀ s, parse_from s lines ≠ .err := by
  induction lines with
  | nil =>
    intro s
    simp [parse_from]
  | cons l ls ih =>
    intro s
    unfold parse_from
    cases h : parse_step s l with
    | ok s' => exact ih s'
    | panicked => simp
    | err => exact absurd h (parse_step_no_err s l)

theorem parse_from_ok_iff (lines : List (List Char)) :
    ∀ s, (∃ s', parse_from s lines = .ok s') ↔
      ∀ l ∈ lines, lineDocumented l := by
  induction lines with
  | nil =>
    intro s
    simp [parse_from]
  | cons l ls ih =>
    intro s
    unfold parse_from
    cases h : parse_step s l with
    | ok s' =>
      have hl : lineDocumented l := (parse_step_ok_iff s l).mp ⟨s', h⟩
      simp only [List.mem_cons]
      constructor
      · intro hex l' hl'
        rcases hl' with rfl | hl'
        · exact hl
        · exact ((ih s').mp hex) l' hl'
      · intro hall
        exact (ih s').mpr fun l' hl' => hall l' (Or.inr hl')
    | panicked =>
      have hl : ¬ lineDocumented l := fun hd => by
        rcases (parse_step_ok_iff s l).mpr hd with ⟨s', hs⟩
        rw [h] at hs
        exact absurd hs (by simp)
      constructor
      · rintro ⟨s', hs⟩
        exact absurd hs (by simp)
      · intro hall
        exact absurd (hall l (by simp)) hl
    | err => exact absurd h (parse_step_no_err s l)

/-- C7: `parse` returns normally exactly when every line that is not a
skipped `From `-line and not a `specs: ` or `fatal: ` line has one of the
three documented mapping shapes with at least three non-empty tokens past
the marker; on any other line it panics instead of returning an `Err`. -/
theorem parse_ok_iff_documented (lines : List (List Char)) :
    ((∃ m, parse lines = .ok m) ↔ ∀ l ∈ lines, lineDocumented l) ∧
    ((¬ ∀ l ∈ lines, lineDocumented l) → parse lines = .panicked) := by
  have h1 := parse_from_ok_iff lines { map := [], mappings := [], fatal := none }
  have h2 := parse_from_no_err lines { map := [], mappings := [], fatal := none }
  unfold parse
  cases hp : parse_from { map := [], mappings := [], fatal := none } lines with
  | ok s =>
    rw [hp] at h1
    constructor
    · constructor
      · intro _
        exact h1.mp ⟨s, rfl⟩
      · intro _
        exact ⟨s.map, rfl⟩
    · intro hall
      exact absurd (h1.mp ⟨s, rfl⟩) hall
  | panicked =>
    rw [hp] at h1
    constructor
    · constructor
      · rintro ⟨m, hm⟩
        exact absurd hm (by simp)
      · intro hall
        rcases h1.mpr hall with ⟨s', hs⟩
        exact absurd hs (by simp)
    · intro _
      rfl
  | err => exact absurd hp h2

/-- Witness for C7: a shaped input parses, an unshaped line panics. -/
theorem parse_ok_iff_documented_witness :
    (∃ m, parse [bytes "specs: refs/heads/main",
                 bytes " * branch main -> FETCH_HEAD"] = .ok m) ∧
    parse [bytes "what is this"] = Outcome.panicked := by
  constructor
  · exact (parse_ok_iff_documented _).1.mpr (by decide)
  · exact (parse_ok_iff_documented _).2 (by decide)

theorem parse_from_plain (pre : List (List Char)) :
    ∀ (s : BaselineState) (rest : List (List Char)),
      (∀ l ∈ pre, plainMappingLine l = true) →
      parse_from s (pre ++ rest) =
        parse_from { s with mappings := s.mappings ++ mappingsOf pre } rest := by
  induction pre with
  | nil =>
    intro s rest _h
    simp [mappingsOf]
  | cons a pre' ih =>
    intro s rest h
    have ha := h a (by simp)
    unfold plainMappingLine at ha
    rw [Bool.and_eq_true, Bool.and_eq_true, Bool.and_eq_true] at ha
    obtain ⟨⟨⟨h1, h2⟩, h3⟩, h4⟩ := ha
    have hF : startsWithL (bytes "From ") a = false := by simpa using h1
    have hsp : stripPre (bytes "specs: ") a = none :=
      Option.isNone_iff_eq_none.mp h2
    have hfa : stripPre (bytes "fatal: ") a = none :=
      Option.isNone_iff_eq_none.mp h3
    obtain ⟨m, hm⟩ : ∃ m, parseMappingLine a = .ok m := by
      cases hma : parseMappingLine a with
      | ok m => exact ⟨m, rfl⟩
      | panicked => rw [hma] at h4; simp at h4
      | err => rw [hma] at h4; simp at h4
    rw [List.cons_append]
    conv_lhs => rw [parse_from]
    rw [parse_step_mapping s a m hF hsp hfa hm]
    dsimp only
    rw [ih _ rest (fun l hl => h l (by simp [hl]))]
    have hmap : mappingsOf (a :: pre') = m :: mappingsOf pre' := by
      unfold mappingsOf
      rw [List.filterMap_cons, hm]
    rw [hmap, List.append_assoc, List.singleton_append]

/-- C5 counterexample: reading the mapping line as following its `specs:`
line (as the claim states) gives the wrong result — the case keyed `a` gets
`Ok []`, not the mapping of the line after it. -/
theorem parse_spec_line_cex :
    parse [bytes "specs: a", bytes " * branch b -> FETCH_HEAD"] =
      .ok [([bytes "a"], Except.ok [])] ∧
    (Except.ok ([] : List Mapping) : Except (List Char) (List Mapping)) ≠
      Except.ok [{ remote := bytes "refs/heads/b", localName := none }] := by
  exact ⟨by decide, by decide⟩

/-- C5 (amended): a `specs: k` line closes one case keyed by the space-split
spec list; its value is `Err msg` when a `fatal: msg` line was given among
the case's lines — which precede the `specs:` line — and otherwise `Ok` of
the mappings accumulated so far, with the case's own mapping lines appended
to whatever the accumulator already held. -/
theorem parse_case_value (m0 : Baseline) (acc : List Mapping)
    (pre : List (List Char)) (k msg : List Char)
    (hpre : ∀ l ∈ pre, plainMappingLine l = true) :
    (parse_from { map := m0, mappings := acc, fatal := none }
        (pre ++ [bytes "specs: " ++ k]) =
      .ok { map := insertA (splitAll ' ' k)
              (Except.ok (acc ++ mappingsOf pre)) m0,
            mappings := [], fatal := none }) ∧
    (parse_from { map := m0, mappings := acc, fatal := none }
        (pre ++ [bytes "fatal: " ++ msg, bytes "specs: " ++ k]) =
      .ok { map := insertA (splitAll ' ' k) (Except.error msg) m0,
            mappings := acc ++ mappingsOf pre, fatal := none }) := by
  constructor
  · rw [parse_from_plain pre _ _ hpre]
    unfold parse_from
    rw [parse_step_specs]
    rfl
  · rw [parse_from_plain pre _ _ hpre]
    unfold parse_from
    rw [parse_step_fatal]
    dsimp only
    unfold parse_from
    rw [parse_step_specs]
    rfl

/-- Witness for the amended C5 at one concrete case block. -/
theorem parse_case_value_witness :
    (parse_from { map := [], mappings := [], fatal := none }
        ([bytes " * branch b -> origin/b"] ++ [bytes "specs: " ++ bytes "a"]) =
      .ok { map := insertA (splitAll ' ' (bytes "a"))
              (Except.ok ([] ++ mappingsOf [bytes " * branch b -> origin/b"])) [],
            mappings := [], fatal := none }) ∧
    (parse_from { map := [], mappings := [], fatal := none }
        ([bytes " * branch b -> origin/b"] ++
          [bytes "fatal: " ++ bytes "boom", bytes "specs: " ++ bytes "a"]) =
      .ok { map := insertA (splitAll ' ' (bytes "a"))
              (Except.error (bytes "boom")) [],
            mappings := [] ++ mappingsOf [bytes " * branch b -> origin/b"],
            fatal := none }) := by
  exact parse_case_value [] [] [bytes " * branch b -> origin/b"]
    (bytes "a") (bytes "boom") (by decide)

/-- C8: closing a case while a fatal message is pending yields `Err` for
that case's key but leaves the accumulated mappings untouched — they are
taken (emptied) only by the `Ok` branch — and a following `specs:` line
receives them in its `Ok` value. -/
theorem parse_fatal_keeps_mappings (s : BaselineState) (msg k1 k2 : List Char)
    (h : s.fatal = some msg) :
    parse_step s (bytes "specs: " ++ k1) =
      .ok { map := insertA (splitAll ' ' k1) (Except.error msg) s.map,
            mappings := s.mappings, fatal := none } ∧
    parse_from s [bytes "specs: " ++ k1, bytes "specs: " ++ k2] =
      .ok { map := insertA (splitAll ' ' k2) (Except.ok s.mappings)
                     (insertA (splitAll ' ' k1) (Except.error msg) s.map),
            mappings := [], fatal := none } := by
  have h1 := parse_step_specs s k1
  rw [h] at h1
  constructor
  · exact h1
  · unfold parse_from
    rw [h1]
    dsimp only
    unfold parse_from
    rw [parse_step_specs]
    rfl

/-- Witness for C8 at a concrete pending-fatal state. -/
theorem parse_fatal_keeps_mappings_witness :
    parse_step
        { map := [],
          mappings := [{ remote := bytes "refs/heads/b", localName := none }],
          fatal := some (bytes "boom") }
        (bytes "specs: " ++ bytes "a") =
      .ok { map := insertA (splitAll ' ' (bytes "a"))
              (Except.error (bytes "boom")) [],
            mappings := [{ remote := bytes "refs/heads/b", localName := none }],
            fatal := none } ∧
    parse_from
        { map := [],
          mappings := [{ remote := bytes "refs/heads/b", localName := none }],
          fatal := some (bytes "boom") }
        [bytes "specs: " ++ bytes "a", bytes "specs: " ++ bytes "c"] =
      .ok { map := insertA (splitAll ' ' (bytes "c"))
              (Except.ok [{ remote := bytes "refs/heads/b", localName := none }])
              (insertA (splitAll ' ' (bytes "a"))
                (Except.error (bytes "boom")) []),
            mappings := [], fatal := none } := by
  exact parse_fatal_keeps_mappings _ (bytes "boom") (bytes "a") (bytes "c") rfl

/-- C6: on any scope exit, the `SnapshotMut` destructor commits the pending
configuration when the repository handle is still present and does nothing
once an explicit settle has taken it; the `CommitAndRollback` destructor
always restores the previous configuration. -/
theorem snapshot_drop_behavior {C : Type} (e : ScopeExit)
    (s : SnapshotMutM C) (r : Repository C) (cr : CommitAndRollbackM C) :
    (s.repo = some r → snapshotScopeExit e s = some { resolved := s.config }) ∧
    (s.repo = none → snapshotScopeExit e s = none) ∧
    rollbackScopeExit e cr = { resolved := cr.prev_config } := by
  refine ⟨?_, ?_, rfl⟩
  · intro h
    simp [snapshotScopeExit, dropSnapshotMut, h, commit_inner]
  · intro h
    simp [snapshotScopeExit, dropSnapshotMut, h]

/-- Witness for C6 at concrete states, on differing exit paths. -/
theorem snapshot_drop_behavior_witness :
    snapshotScopeExit ScopeExit.failure
        ({ repo := some { resolved := 0 }, config := 5 } : SnapshotMutM Nat) =
      some { resolved := 5 } ∧
    rollbackScopeExit ScopeExit.earlyReturn
        ({ repo := { resolved := 1 }, prev_config := 2 } :
          CommitAndRollbackM Nat) =
      { resolved := 2 } := by
  exact ⟨(snapshot_drop_behavior ScopeExit.failure _ { resolved := 0 }
      { repo := { resolved := 1 }, prev_config := 2 }).1 rfl,
    (snapshot_drop_behavior ScopeExit.earlyReturn
      ({ repo := some { resolved := 0 }, config := 5 } : SnapshotMutM Nat)
      { resolved := 0 } _).2.2⟩

end Gitoxide
